import Mathlib

/-!
Verification of the blend_diff reference-graph analyzer and patch engine
(`blend_diff/util.py`), via a shallow embedding.

The binary-container reader (`blender_asset_tracer.blendfile`) is an external
collaborator; the parts of its interface the core needs (block enumeration,
field get/set by symbolic path, address lookup, the raw byte stream) are
modelled from the spec's interface description.
-/

set_option autoImplicit false

namespace BlendDiff

/-- One segment of a symbolic field path: a field name or an array index. -/
inductive PathSeg where
  | pname (s : String)
  | pidx (n : Nat)
deriving DecidableEq, Repr

/-- A field path ("tail" in the source): sequence of path segments. -/
abbrev Tail := List PathSeg

/-- The name part of a reflection-catalog field descriptor
(`field.name` in `blender_asset_tracer.dna`): bare name, pointer flag,
declared array size. -/
structure FieldName where
  name_only : String
  is_pointer : Bool
  array_size : Nat
deriving DecidableEq, Repr

/-- A reflection-catalog field descriptor (`blendfile.dna.Field`):
its name descriptor, the id of its declared type (`field.dna_type.dna_type_id`)
and the declared type's own field list (`field.dna_type.fields`). -/
inductive DNAField where
  | mk (name : FieldName) (dna_type_id : String) (fields : List DNAField)

/-- The name descriptor of a field. -/
def DNAField.name : DNAField → FieldName
  | .mk nm _ _ => nm

/-- The type id of a field's declared type. -/
def DNAField.dna_type_id : DNAField → String
  | .mk _ tid _ => tid

/-- The declared field list of a field's declared type. -/
def DNAField.fields : DNAField → List DNAField
  | .mk _ _ fs => fs

/-- One entry of the reflection catalog (`blendfile.dna.Struct`). -/
structure DNAStruct where
  dna_type_id : String
  fields : List DNAField

/-- One file-block (`blendfile.BlendFileBlock`), as exposed by the external
reader: address, catalog index, category code, item count, and the raw
payload modelled as what `get(path, block_item_index)` returns. -/
structure Block where
  addr_old : Int
  sdna_index : Nat
  code : String
  count : Nat
  data : Tail → Nat → Int

instance : Inhabited Block := ⟨⟨0, 0, "", 0, fun _ _ => 0⟩⟩

/-- Reader method `block.get(path, block_item_index=i)`. -/
def Block.get (b : Block) (t : Tail) (i : Nat) : Int := b.data t i

/-- Reader method `block.set(path, block_item_index=i, value=v)`:
the block with one terminal location overwritten. -/
def Block.setData (b : Block) (t : Tail) (i : Nat) (v : Int) : Block :=
  { b with data := fun t' i' => if t' = t ∧ i' = i then v else b.data t' i' }

/-- The shared file handle: its byte contents and current read position. -/
structure FileObj where
  contents : List Nat
  pos : Nat
deriving DecidableEq, Repr

/-- Python `fileobj.tell()`. -/
def FileObj.tell (f : FileObj) : Nat := f.pos

/-- Python `fileobj.seek(p)`. -/
def FileObj.seek (f : FileObj) (p : Nat) : FileObj := { f with pos := p }

/-- Python `fileobj.read()`: all bytes from the current position; the position
moves to the end of the stream. -/
def FileObj.readAll (f : FileObj) : FileObj × List Nat :=
  ({ f with pos := f.contents.length }, f.contents.drop f.pos)

/-- A loaded blend file (`blendfile.BlendFile`): block table, reflection
catalog (`bf.structs`), and the underlying byte stream. -/
structure BlendFile where
  blocks : List Block
  structs : List DNAStruct
  fileobj : FileObj

/-- Reader property `block.dna_type`: the catalog entry of a block's type
(`bf.structs[block.sdna_index]`). -/
def blockType (bf : BlendFile) (b : Block) : DNAStruct :=
  bf.structs.getD b.sdna_index ⟨"", []⟩

/-- One inbound-reference record (`util.Inverse`): the *referencing* block's
address, the array item that holds the pointer, the referencing block's type
id, and the field path of the pointer field. -/
structure Inverse where
  address : Int
  block_item_index : Nat
  dna_type_id : String
  path : Tail
deriving DecidableEq, Repr

/-- The inverse map `defaultdict[int, set[Inverse]]`, modelled as an
association list with unique keys in insertion order; each value is the
set's contents as an insertion-ordered duplicate-free list. -/
abbrev InvMap := List (Int × List Inverse)

/-- Python `set.add`: append unless already present. -/
def listInsert (l : List Inverse) (v : Inverse) : List Inverse :=
  if v ∈ l then l else l ++ [v]

/-- Defaultdict `inverses[k].add(v)`: inserts the key (with an empty
set) when missing, then adds `v` to the key's set. -/
def addInv : InvMap → Int → Inverse → InvMap
  | [], k, v => [(k, [v])]
  | (k', s) :: rest, k, v =>
    if k' = k then (k', listInsert s v) :: rest else (k', s) :: addInv rest k v

/-- Defaultdict read `inverses[k]` when the result is only inspected: inserts
the key with an empty set when missing. -/
def touch : InvMap → Int → InvMap
  | [], k => [(k, [])]
  | (k', s) :: rest, k =>
    if k' = k then (k', s) :: rest else (k', s) :: touch rest k

/-- Read a key's set (empty when the key is absent). -/
def invLookup : InvMap → Int → List Inverse
  | [], _ => []
  | (k', s) :: rest, k => if k' = k then s else invLookup rest k

/-- The key list of the map, in insertion order. -/
def invKeys (m : InvMap) : List Int := m.map Prod.fst

mutual

/-- Method `BlendFileInverses.check_block_field`: walk one field descriptor of one
block item, adding an `Inverse` for every non-zero pointer terminal.
`none` models reaching the `assert False` branch. -/
def check_block_field (tid : String) (blk : Block) (bii : Nat) :
    DNAField → Tail → InvMap → Option InvMap
  | .mk nm _ fs, tail, m =>
    -- fields = field.dna_type.fields; is_pointer = field.name.is_pointer
    if fs.isEmpty ∧ nm.is_pointer = false then some m
    else
      let tail1 := tail ++ [PathSeg.pname nm.name_only]
      (List.range nm.array_size).foldlM (fun m1 ai =>
        -- Append the array index only for multi-item fields.
        let tail2 := if nm.array_size = 1 then tail1 else tail1 ++ [PathSeg.pidx ai]
        if nm.is_pointer then
          -- Pointer check first: a pointer's declared type may itself have fields.
          let v := blk.get tail2 bii
          if v = 0 then some m1
          else some (addInv m1 v ⟨blk.addr_old, bii, tid, tail2⟩)
        else if fs.isEmpty = false then
          check_fields tid blk bii fs tail2 m1
        else
          none) m

/-- The inner `for field_ in fields` loop of `check_block_field`. -/
def check_fields (tid : String) (blk : Block) (bii : Nat) :
    List DNAField → Tail → InvMap → Option InvMap
  | [], _, m => some m
  | f :: rest, tail, m =>
    match check_block_field tid blk bii f tail m with
    | none => none
    | some m1 => check_fields tid blk bii rest tail m1

end

mutual

/-- The pointer-terminal paths reachable under one field descriptor: the
data-independent skeleton of `check_block_field`'s traversal. -/
def ptrLeavesF : DNAField → Tail → List Tail
  | .mk nm _ fs, tail =>
    if fs.isEmpty ∧ nm.is_pointer = false then []
    else
      let tail1 := tail ++ [PathSeg.pname nm.name_only]
      (List.range nm.array_size).flatMap fun ai =>
        let tail2 := if nm.array_size = 1 then tail1 else tail1 ++ [PathSeg.pidx ai]
        if nm.is_pointer then [tail2] else ptrLeavesL fs tail2

/-- The pointer-terminal paths reachable under a field list. -/
def ptrLeavesL : List DNAField → Tail → List Tail
  | [], _ => []
  | f :: rest, tail => ptrLeavesF f tail ++ ptrLeavesL rest tail

end

/-- Function `util.pack_address`: the address packed as 8 little-endian bytes
(`struct.pack("<Q", address)`), modelled for non-negative addresses. -/
def pack_address (a : Int) : List Nat :=
  (List.range 8).map fun k => a.toNat / 256 ^ k % 256

/-- Fuel-indexed scan for `bytesCount`; the fuel is the haystack length,
which bounds the number of scan steps. -/
def bytesCountGo (pat : List Nat) : Nat → List Nat → Nat
  | 0, _ => 0
  | _, [] => 0
  | fuel + 1, b :: rest =>
    if pat = (b :: rest).take pat.length then
      1 + bytesCountGo pat fuel ((b :: rest).drop pat.length)
    else
      bytesCountGo pat fuel rest

/-- Python `bytes.count`: number of non-overlapping occurrences of `pat`. -/
def bytesCount (hay pat : List Nat) : Nat :=
  if pat.isEmpty then hay.length + 1 else bytesCountGo pat hay.length hay

/-- The raw-byte pass of `check_inverses` (lines "Store bytes for inverses
check"): save the offset, seek to the start, read everything, restore the
offset; returns the handle as left behind and the bytes read. -/
def rawBytesPass (f : FileObj) : FileObj × List Nat :=
  let t := f.tell
  let f1 := f.seek 0
  let (f2, bs) := f1.readAll
  (f2.seek t, bs)

/-- The block/item/field traversal of `check_inverses` that fills the
inverse map, starting from the cleared map. -/
def buildMap (bf : BlendFile) : Option InvMap :=
  bf.blocks.foldlM (fun m b =>
    -- Skip `raw_data` structs by 0 index.
    if b.sdna_index = 0 then some m
    else
      (List.range b.count).foldlM (fun m1 i =>
        check_fields (blockType bf b).dna_type_id b i (blockType bf b).fields [] m1) m) []

/-- Modelled from the spec: the external reader's `bf.block_from_addr`
dictionary ("look up a block by address"), built from the block table in
file order, a later block with the same address overwriting an earlier one;
this function yields the index of the block the dictionary maps `a` to. -/
def lastAddrIdx (blocks : List Block) (a : Int) : Option Nat :=
  (List.range blocks.length).foldl
    (fun acc j => if (blocks.getD j default).addr_old = a then some j else acc) none

/-- Python `addr in bf.block_from_addr`. -/
def hasBlockWithAddr (bf : BlendFile) (a : Int) : Bool :=
  (lastAddrIdx bf.blocks a).isSome

/-- One `print` call of the analyzer or the patch engine, with the values
interpolated into the printed text. -/
inductive Msg where
  | orphanHeader
  | orphanLine (tid : String) (code : String) (addr : Int) (ninv : Nat)
      (occ : Nat) (ncode : Nat)
  | noOrphans
  | orphanCount (n : Nat)
  | homelessCount (naddrs : Nat) (nrefs : Nat)
  | addrValidationHeader
  | oddAddress (addr : Int)
  | addressReused (addr : Int)
  | nullifiedCount (n : Nat)
  | sessionUidCount (n : Nat)
deriving DecidableEq, Repr

/-- The mutable fields of a `BlendFileInverses` object. -/
structure InvState where
  inverses : InvMap
  homeless_addresses : List Int
deriving DecidableEq, Repr

/-- What one `check_inverses` call leaves behind: the object's new state,
the file handle as left behind, and everything printed. -/
structure CheckResult where
  state : InvState
  fileobj : FileObj
  log : List Msg
deriving DecidableEq, Repr

/-- The part of `check_inverses` after the traversal loop, taking the map
the traversal built: the raw-byte pass, the printed report, and the final
state. -/
def ciPost (m0 : InvMap) (bf : BlendFile) : CheckResult :=
    -- Store bytes for inverses check.
    let fo := (rawBytesPass bf.fileobj).1
    let bfBytes := (rawBytesPass bf.fileobj).2
    -- Print orphaned data (`inverses[block.addr_old]` inserts missing keys).
    let acc1 := bf.blocks.foldl (fun (acc : InvMap × List Msg) b =>
      let s := invLookup acc.1 b.addr_old
      let m' := touch acc.1 b.addr_old
      if s.length > 0 then (m', acc.2)
      else
        (m', acc.2 ++ [Msg.orphanLine (blockType bf b).dna_type_id b.code
          b.addr_old s.length (bytesCount bfBytes (pack_address b.addr_old))
          (bf.blocks.filter (fun b2 => b2.code == b.code)).length]))
      (m0, [Msg.orphanHeader])
    -- orphaned = [b for b in bf.blocks if len(inverses[b.addr_old]) == 0]
    let acc2 := bf.blocks.foldl (fun (acc : InvMap × List Block) b =>
      let s := invLookup acc.1 b.addr_old
      let m' := touch acc.1 b.addr_old
      (m', if s.length = 0 then acc.2 ++ [b] else acc.2)) (acc1.1, [])
    let m2 := acc2.1
    let orphaned := acc2.2
    let log2 := acc1.2 ++ (if orphaned.isEmpty then [Msg.noOrphans] else [])
      ++ [Msg.orphanCount orphaned.length]
    -- Pointers without file-blocks.
    let homeless := (invKeys m2).filter (fun p => !(hasBlockWithAddr bf p))
    let refs := (homeless.map (fun p => (invLookup m2 p).length)).sum
    let log3 := log2 ++ [Msg.homelessCount homeless.length refs,
      Msg.addrValidationHeader]
    -- Odd file-block addresses.
    let acc3 := bf.blocks.foldl (fun (acc : List Int × List Msg) b =>
      if b.addr_old ≤ 0 then (acc.1, acc.2 ++ [Msg.oddAddress b.addr_old])
      else if b.addr_old ∈ acc.1 then
        (acc.1, acc.2 ++ [Msg.addressReused b.addr_old])
      else (acc.1 ++ [b.addr_old], acc.2)) ([], log3)
    ⟨⟨m2, homeless⟩, fo, acc3.2⟩

/-- Method `BlendFileInverses.check_inverses`: build the inverse map and print the
integrity report. `none` models the `assert False` abort of the walker. -/
def check_inverses (st : InvState) (bf : BlendFile) : Option CheckResult :=
  -- self.inverses.clear(): the prior contents of `st.inverses` are
  -- discarded and the map is rebuilt from scratch.
  match buildMap bf with
  | none => none
  | some m0 => some (ciPost m0 bf)

/-- One field write of `nullify_homeless_addresses`:
`block = bf.block_from_addr[inverse_.address]` followed by
`block.set(inverse_.path, block_item_index=inverse_.block_item_index,
value=0)`, on a block table `bl`. `none` models the `KeyError` when the
address lookup fails. -/
def applyWrite (bl : List Block) (inv : Inverse) : Option (List Block) :=
  match lastAddrIdx bl inv.address with
  | none => none
  | some j => some (bl.set j
      ((bl.getD j default).setData inv.path inv.block_item_index 0))

/-- Method `BlendPatch.nullify_homeless_addresses`: for every homeless address,
set every field recorded as referencing it to 0; counts the mutated
fields. -/
def nullify_homeless_addresses (st : InvState) (bf : BlendFile) :
    Option (BlendFile × Nat × Msg) :=
  let r := st.homeless_addresses.foldlM (fun (acc : List Block × Nat) addr =>
    (invLookup st.inverses addr).foldlM (fun (acc1 : List Block × Nat) inv =>
      match applyWrite acc1.1 inv with
      | none => none
      | some bl => some (bl, acc1.2 + 1)) acc)
    (bf.blocks, 0)
  match r with
  | none => none
  | some (bl, n) => some ({ bf with blocks := bl }, n, Msg.nullifiedCount n)

/-- Modelled from the spec: the external reader's by-name field lookup
`struct._fields_by_name.get(name)` (a dictionary keyed by field name, built
from the field list in order, a later duplicate name overwriting an earlier
one). -/
def fieldsByName (s : DNAStruct) (nm : String) : Option DNAField :=
  s.fields.foldl (fun acc f => if f.name.name_only = nm then some f else acc)
    none

/-- Function `util.is_id_block`: the block type's field list has a field named `id`
whose declared type is the catalog's `ID` struct. -/
def is_id_block (bf : BlendFile) (sdna_index : Nat) : Bool :=
  match fieldsByName (bf.structs.getD sdna_index ⟨"", []⟩) ("id") with
  | none => false
  | some f => f.dna_type_id == "ID"

/-- The path `(b"id", b"session_uid")`. -/
def idSessionTail : Tail := [PathSeg.pname ("id"), PathSeg.pname ("session_uid")]

/-- Method `BlendPatch.nullify_session_uids`: zero `id.session_uid` on every ID
file-block (`functools.cache` only memoizes `is_id_block`; semantically it
is the identity). -/
def nullify_session_uids (bf : BlendFile) : BlendFile × Nat × Msg :=
  let acc := bf.blocks.foldl (fun (acc : List Block × Nat) b =>
    if is_id_block bf b.sdna_index then
      (acc.1 ++ [b.setData idSessionTail 0 0], acc.2 + 1)
    else (acc.1 ++ [b], acc.2)) ([], 0)
  ({ bf with blocks := acc.1 }, acc.2, Msg.sessionUidCount acc.2)

/-! ## Basic facts about the inverse-map operations -/

@[simp] theorem invLookup_nil (k : Int) : invLookup [] k = [] := rfl

theorem invLookup_cons (ka : Int) (s : List Inverse) (rest : InvMap) (k : Int) :
    invLookup ((ka, s) :: rest) k = if ka = k then s else invLookup rest k := rfl

theorem touch_cons (ka : Int) (s : List Inverse) (rest : InvMap) (k : Int) :
    touch ((ka, s) :: rest) k =
      if ka = k then (ka, s) :: rest else (ka, s) :: touch rest k := rfl

theorem addInv_cons (ka : Int) (s : List Inverse) (rest : InvMap) (k : Int)
    (v : Inverse) :
    addInv ((ka, s) :: rest) k v =
      if ka = k then (ka, listInsert s v) :: rest
      else (ka, s) :: addInv rest k v := rfl

theorem mem_listInsert (l : List Inverse) (v x : Inverse) :
    x ∈ listInsert l v ↔ x ∈ l ∨ x = v := by
  unfold listInsert
  by_cases h : v ∈ l
  · simp only [if_pos h]
    constructor
    · exact Or.inl
    · rintro (hx | rfl) <;> assumption
  · simp [if_neg h, List.mem_append]

theorem invLookup_touch (m : InvMap) (k k' : Int) :
    invLookup (touch m k) k' = invLookup m k' := by
  induction m with
  | nil =>
    show invLookup [(k, [])] k' = []
    rw [invLookup_cons]
    split <;> simp
  | cons p rest ih =>
    obtain ⟨ka, s⟩ := p
    rw [touch_cons]
    by_cases h : ka = k
    · simp [h]
    · rw [if_neg h, invLookup_cons, invLookup_cons]
      split <;> simp [ih]

@[simp] theorem invKeys_nil : invKeys [] = [] := rfl

@[simp] theorem invKeys_cons (ka : Int) (s : List Inverse) (rest : InvMap) :
    invKeys ((ka, s) :: rest) = ka :: invKeys rest := rfl

theorem invKeys_touch (m : InvMap) (k : Int) :
    invKeys (touch m k) =
      if k ∈ invKeys m then invKeys m else invKeys m ++ [k] := by
  induction m with
  | nil => simp [touch]
  | cons p rest ih =>
    obtain ⟨ka, s⟩ := p
    rw [touch_cons]
    by_cases h : ka = k
    · subst h
      simp
    · rw [if_neg h]
      simp only [invKeys_cons, ih, List.mem_cons]
      by_cases hk : k ∈ invKeys rest
      · simp [hk]
      · have hne : ¬ k = ka := fun hc => h hc.symm
        simp [hk, hne]

theorem mem_invKeys_touch (m : InvMap) (k a : Int) :
    a ∈ invKeys (touch m k) ↔ a = k ∨ a ∈ invKeys m := by
  rw [invKeys_touch]
  by_cases hk : k ∈ invKeys m
  · rw [if_pos hk]
    constructor
    · exact Or.inr
    · rintro (rfl | h)
      · exact hk
      · exact h
  · rw [if_neg hk]
    simp only [List.mem_append, List.mem_singleton]
    tauto

theorem mem_invLookup_addInv (m : InvMap) (k : Int) (v : Inverse)
    (k' : Int) (x : Inverse) :
    x ∈ invLookup (addInv m k v) k' ↔
      x ∈ invLookup m k' ∨ (k' = k ∧ x = v) := by
  induction m with
  | nil =>
    show x ∈ invLookup [(k, [v])] k' ↔ _
    rw [invLookup_cons]
    by_cases h : k = k'
    · subst h
      simp
    · simp [if_neg h]
      exact fun hc => absurd hc.symm h
  | cons p rest ih =>
    obtain ⟨ka, s⟩ := p
    rw [addInv_cons]
    by_cases h : ka = k
    · subst h
      rw [if_pos rfl, invLookup_cons, invLookup_cons]
      by_cases h2 : ka = k'
      · subst h2
        simp [mem_listInsert]
      · simp only [if_neg h2]
        have hne : ¬ k' = ka := fun hc => h2 hc.symm
        tauto
    · rw [if_neg h, invLookup_cons, invLookup_cons]
      by_cases h2 : ka = k'
      · subst h2
        have hne : ¬ ka = k := h
        simp only [if_pos rfl]
        constructor
        · exact Or.inl
        · rintro (hx | ⟨rfl, rfl⟩)
          · exact hx
          · exact absurd rfl hne
      · simp only [if_neg h2]
        exact ih

/-! ## Fold helpers -/

theorem foldlM_eq_some {α β : Type} (step : β → α → Option β) (g : β → α → β)
    (l : List α) (h : ∀ b a, a ∈ l → step b a = some (g b a)) (init : β) :
    l.foldlM step init = some (l.foldl g init) := by
  induction l generalizing init with
  | nil => rfl
  | cons a rest ih =>
    have ha : step init a = some (g init a) := h init a (List.mem_cons_self a rest)
    rw [List.foldlM_cons, ha, List.foldl_cons]
    simpa using ih (fun b x hx => h b x (List.mem_cons_of_mem a hx)) (g init a)

theorem foldl_flatMap {α β γ : Type} (l : List α) (h : α → List β)
    (step : γ → β → γ) (init : γ) :
    ((l.flatMap h).foldl step init) =
      l.foldl (fun acc a => (h a).foldl step acc) init := by
  induction l generalizing init with
  | nil => rfl
  | cons a rest ih =>
    simp only [List.flatMap_cons, List.foldl_append, List.foldl_cons, ih]

/-! ## The walker as a pure fold over its pointer terminals -/

/-- One pointer-terminal step of the walker: record an `Inverse` for the
terminal unless its stored value is 0. -/
def leafAdd (tid : String) (blk : Block) (bii : Nat) (m : InvMap) (t : Tail) :
    InvMap :=
  if blk.get t bii = 0 then m
  else addInv m (blk.get t bii) ⟨blk.addr_old, bii, tid, t⟩

mutual

theorem check_block_field_eq (tid : String) (blk : Block) (bii : Nat) :
    ∀ (f : DNAField) (tail : Tail) (m : InvMap),
    check_block_field tid blk bii f tail m =
      some ((ptrLeavesF f tail).foldl (leafAdd tid blk bii) m)
  | .mk nm ftid fs, tail, m => by
    rw [check_block_field, ptrLeavesF]
    by_cases hguard : fs.isEmpty ∧ nm.is_pointer = false
    · rw [if_pos hguard, if_pos hguard, List.foldl_nil]
    · rw [if_neg hguard, if_neg hguard]
      by_cases hptr : nm.is_pointer = true
      · rw [foldlM_eq_some _
          (fun m1 ai => leafAdd tid blk bii m1
            (if nm.array_size = 1 then tail ++ [PathSeg.pname nm.name_only]
             else tail ++ [PathSeg.pname nm.name_only] ++ [PathSeg.pidx ai]))
          _ (fun m1 ai _ => by
            simp only [hptr, if_true, leafAdd, Block.get]
            exact (apply_ite some _ _ _).symm)]
        rw [foldl_flatMap]
        congr 1
        apply List.foldl_ext
        intro m1 ai _
        simp only [hptr, if_true, List.foldl_cons, List.foldl_nil,
          List.append_assoc]
      · have hptr2 : nm.is_pointer = false := by
          cases h : nm.is_pointer
          · rfl
          · exact absurd h hptr
        have hfs : fs.isEmpty = false := by
          cases h : fs.isEmpty
          · rfl
          · exact absurd ⟨h, hptr2⟩ hguard
        rw [foldlM_eq_some _
          (fun m1 ai =>
            (ptrLeavesL fs
              (if nm.array_size = 1 then tail ++ [PathSeg.pname nm.name_only]
               else tail ++ [PathSeg.pname nm.name_only] ++ [PathSeg.pidx ai])).foldl
              (leafAdd tid blk bii) m1)
          _ (fun m1 ai _ => by
            simp only [hptr2, Bool.false_eq_true, if_false, hfs]
            rw [if_pos trivial]
            exact check_fields_eq tid blk bii fs _ m1)]
        rw [foldl_flatMap]
        congr 1
        apply List.foldl_ext
        intro m1 ai _
        simp only [hptr2, Bool.false_eq_true, if_false, List.append_assoc]

theorem check_fields_eq (tid : String) (blk : Block) (bii : Nat) :
    ∀ (fs : List DNAField) (tail : Tail) (m : InvMap),
    check_fields tid blk bii fs tail m =
      some ((ptrLeavesL fs tail).foldl (leafAdd tid blk bii) m)
  | [], tail, m => by
    rw [check_fields, ptrLeavesL, List.foldl_nil]
  | f :: rest, tail, m => by
    rw [check_fields, check_block_field_eq tid blk bii f tail m, ptrLeavesL,
      List.foldl_append]
    exact check_fields_eq tid blk bii rest tail _

end

/-- The pure form of `buildMap`: the inverse map the traversal builds. -/
def buildMapT (bf : BlendFile) : InvMap :=
  bf.blocks.foldl (fun m b =>
    if b.sdna_index = 0 then m
    else (List.range b.count).foldl (fun m1 i =>
      (ptrLeavesL (blockType bf b).fields []).foldl
        (leafAdd (blockType bf b).dna_type_id b i) m1) m) []

theorem buildMap_eq (bf : BlendFile) : buildMap bf = some (buildMapT bf) := by
  unfold buildMap buildMapT
  apply foldlM_eq_some
  intro m b _
  by_cases h : b.sdna_index = 0
  · rw [if_pos h, if_pos h]
  · rw [if_neg h, if_neg h]
    apply foldlM_eq_some
    intro m1 i _
    exact check_fields_eq _ _ _ _ _ _

/-! ## Membership in the built map -/

theorem foldl_invLookup_mem {α : Type} (step : InvMap → α → InvMap)
    (Q : α → Int → Inverse → Prop)
    (hstep : ∀ m a k x,
      x ∈ invLookup (step m a) k ↔ x ∈ invLookup m k ∨ Q a k x) :
    ∀ (l : List α) (m : InvMap) (k : Int) (x : Inverse),
      x ∈ invLookup (l.foldl step m) k ↔
        x ∈ invLookup m k ∨ ∃ a ∈ l, Q a k x := by
  intro l
  induction l with
  | nil => simp
  | cons a rest ih =>
    intro m k x
    rw [List.foldl_cons, ih, hstep]
    simp only [List.mem_cons]
    constructor
    · rintro ((hm | hq) | ⟨a', ha', hq'⟩)
      · exact Or.inl hm
      · exact Or.inr ⟨a, Or.inl rfl, hq⟩
      · exact Or.inr ⟨a', Or.inr ha', hq'⟩
    · rintro (hm | ⟨a', (rfl | ha'), hq'⟩)
      · exact Or.inl (Or.inl hm)
      · exact Or.inl (Or.inr hq')
      · exact Or.inr ⟨a', ha', hq'⟩

theorem mem_invLookup_leafAdd (tid : String) (blk : Block) (bii : Nat)
    (m : InvMap) (t : Tail) (k : Int) (x : Inverse) :
    x ∈ invLookup (leafAdd tid blk bii m t) k ↔
      x ∈ invLookup m k ∨
        (blk.get t bii = k ∧ k ≠ 0 ∧ x = ⟨blk.addr_old, bii, tid, t⟩) := by
  unfold leafAdd
  by_cases h : blk.get t bii = 0
  · rw [if_pos h]
    constructor
    · exact Or.inl
    · rintro (hx | ⟨hv, hk, _⟩)
      · exact hx
      · exact absurd (hv ▸ h) hk
  · rw [if_neg h, mem_invLookup_addInv]
    constructor
    · rintro (hx | ⟨rfl, rfl⟩)
      · exact Or.inl hx
      · exact Or.inr ⟨rfl, h, rfl⟩
    · rintro (hx | ⟨hv, _, rfl⟩)
      · exact Or.inl hx
      · exact Or.inr ⟨hv.symm, rfl⟩

theorem mem_buildMapT (bf : BlendFile) (k : Int) (x : Inverse) :
    x ∈ invLookup (buildMapT bf) k ↔
      ∃ b ∈ bf.blocks, b.sdna_index ≠ 0 ∧
        ∃ i < b.count, ∃ t ∈ ptrLeavesL (blockType bf b).fields [],
          b.get t i = k ∧ k ≠ 0 ∧
          x = ⟨b.addr_old, i, (blockType bf b).dna_type_id, t⟩ := by
  unfold buildMapT
  rw [foldl_invLookup_mem _
    (fun b k x => b.sdna_index ≠ 0 ∧
      ∃ i < b.count, ∃ t ∈ ptrLeavesL (blockType bf b).fields [],
        b.get t i = k ∧ k ≠ 0 ∧
        x = ⟨b.addr_old, i, (blockType bf b).dna_type_id, t⟩)]
  · simp
  · intro m b k' x'
    by_cases h : b.sdna_index = 0
    · rw [if_pos h]
      simp [h]
    · rw [if_neg h]
      rw [foldl_invLookup_mem _
        (fun i k x => ∃ t ∈ ptrLeavesL (blockType bf b).fields [],
          b.get t i = k ∧ k ≠ 0 ∧
          x = ⟨b.addr_old, i, (blockType bf b).dna_type_id, t⟩)]
      · simp only [List.mem_range, h, ne_eq, not_false_iff, true_and]
      · intro m' i k'' x''
        rw [foldl_invLookup_mem _
          (fun t k x => b.get t i = k ∧ k ≠ 0 ∧
            x = ⟨b.addr_old, i, (blockType bf b).dna_type_id, t⟩)]
        intro m'' t k3 x3
        exact mem_invLookup_leafAdd _ _ _ _ _ _ _

/-! ## The shape of a `check_inverses` result -/

/-- The effect on the map of the report loops that read
`inverses[block.addr_old]` for every block. -/
def touchFold (blocks : List Block) (m : InvMap) : InvMap :=
  blocks.foldl (fun m b => touch m b.addr_old) m

theorem invLookup_touchFold (blocks : List Block) (m : InvMap) (k : Int) :
    invLookup (touchFold blocks m) k = invLookup m k := by
  induction blocks generalizing m with
  | nil => rfl
  | cons b rest ih =>
    rw [touchFold, List.foldl_cons]
    exact (ih (touch m b.addr_old)).trans (invLookup_touch m b.addr_old k)

theorem mem_invKeys_touchFold (blocks : List Block) (m : InvMap) (a : Int) :
    a ∈ invKeys (touchFold blocks m) ↔
      (∃ b ∈ blocks, b.addr_old = a) ∨ a ∈ invKeys m := by
  induction blocks generalizing m with
  | nil => simp [touchFold]
  | cons b rest ih =>
    rw [touchFold, List.foldl_cons]
    rw [show List.foldl (fun m b => touch m b.addr_old) (touch m b.addr_old)
      rest = touchFold rest (touch m b.addr_old) from rfl, ih,
      mem_invKeys_touch]
    simp only [List.mem_cons]
    constructor
    · rintro (⟨b', hb', rfl⟩ | (rfl | hm))
      · exact Or.inl ⟨b', Or.inr hb', rfl⟩
      · exact Or.inl ⟨b, Or.inl rfl, rfl⟩
      · exact Or.inr hm
    · rintro (⟨b', (rfl | hb'), rfl⟩ | hm)
      · exact Or.inr (Or.inl rfl)
      · exact Or.inl ⟨b', hb', rfl⟩
      · exact Or.inr (Or.inr hm)

/-- The map `check_inverses` leaves in `self.inverses`. -/
def ciMap (bf : BlendFile) : InvMap :=
  touchFold bf.blocks (touchFold bf.blocks (buildMapT bf))

/-- The list `check_inverses` leaves in `self.homeless_addresses`. -/
def ciHomeless (bf : BlendFile) : List Int :=
  (invKeys (ciMap bf)).filter (fun p => !(hasBlockWithAddr bf p))

theorem check_inverses_eq (st : InvState) (bf : BlendFile) :
    check_inverses st bf = some (ciPost (buildMapT bf) bf) := by
  unfold check_inverses
  rw [buildMap_eq]

theorem foldl_touch_fst {γ : Type} (g : InvMap × γ → Block → γ)
    (blocks : List Block) :
    ∀ init : InvMap × γ,
    (blocks.foldl (fun acc b => (touch acc.1 b.addr_old, g acc b)) init).1 =
      touchFold blocks init.1 := by
  induction blocks with
  | nil => intro _; rfl
  | cons b rest ih =>
    intro init
    rw [List.foldl_cons, ih]
    rfl

theorem foldl_append_log {α γ : Type} (step : γ × List Msg → α → γ × List Msg)
    (hstep : ∀ acc a, ∃ add, (step acc a).2 = acc.2 ++ add) :
    ∀ (l : List α) (init : γ × List Msg),
    ∃ rest, (l.foldl step init).2 = init.2 ++ rest := by
  intro l
  induction l with
  | nil => exact fun init => ⟨[], by simp⟩
  | cons a as ih =>
    intro init
    obtain ⟨add, hadd⟩ := hstep init a
    obtain ⟨rest, hrest⟩ := ih (step init a)
    exact ⟨add ++ rest, by rw [List.foldl_cons, hrest, hadd, List.append_assoc]⟩

theorem ciPost_inverses (m0 : InvMap) (bf : BlendFile) :
    (ciPost m0 bf).state.inverses = touchFold bf.blocks (touchFold bf.blocks m0) := by
  unfold ciPost
  dsimp only
  rw [List.foldl_ext _ (fun (acc : InvMap × List Msg) b =>
      (touch acc.1 b.addr_old,
        if (invLookup acc.1 b.addr_old).length > 0 then acc.2
        else acc.2 ++ [Msg.orphanLine (blockType bf b).dna_type_id b.code
          b.addr_old (invLookup acc.1 b.addr_old).length
          (bytesCount (rawBytesPass bf.fileobj).2 (pack_address b.addr_old))
          (bf.blocks.filter (fun b2 => b2.code == b.code)).length]))
    _ (fun acc b _ => (apply_ite (fun z => (touch acc.1 b.addr_old, z)) _ _ _).symm)]
  rw [foldl_touch_fst, foldl_touch_fst]

theorem ciPost_homeless (m0 : InvMap) (bf : BlendFile) :
    (ciPost m0 bf).state.homeless_addresses =
      (invKeys (touchFold bf.blocks (touchFold bf.blocks m0))).filter
        (fun p => !(hasBlockWithAddr bf p)) := by
  unfold ciPost
  dsimp only
  rw [List.foldl_ext _ (fun (acc : InvMap × List Msg) b =>
      (touch acc.1 b.addr_old,
        if (invLookup acc.1 b.addr_old).length > 0 then acc.2
        else acc.2 ++ [Msg.orphanLine (blockType bf b).dna_type_id b.code
          b.addr_old (invLookup acc.1 b.addr_old).length
          (bytesCount (rawBytesPass bf.fileobj).2 (pack_address b.addr_old))
          (bf.blocks.filter (fun b2 => b2.code == b.code)).length]))
    _ (fun acc b _ => (apply_ite (fun z => (touch acc.1 b.addr_old, z)) _ _ _).symm)]
  rw [foldl_touch_fst, foldl_touch_fst]

theorem ciPost_fileobj (m0 : InvMap) (bf : BlendFile) :
    (ciPost m0 bf).fileobj = (rawBytesPass bf.fileobj).1 := rfl

theorem head?_append_left {α : Type} {l l' : List α} {x : α}
    (h : l.head? = some x) : (l ++ l').head? = some x := by
  cases l with
  | nil => cases h
  | cons a t =>
    simp only [List.head?_cons, Option.some.injEq] at h
    simp [h]

theorem foldl_log_head {α γ : Type} (step : γ × List Msg → α → γ × List Msg)
    (l : List α) (init : γ × List Msg) (msg : Msg)
    (hstep : ∀ acc a, ∃ add, (step acc a).2 = acc.2 ++ add)
    (hinit : init.2.head? = some msg) :
    (l.foldl step init).2.head? = some msg := by
  obtain ⟨rest, hr⟩ := foldl_append_log step hstep l init
  rw [hr]
  exact head?_append_left hinit

theorem ciPost_log_head (m0 : InvMap) (bf : BlendFile) :
    (ciPost m0 bf).log.head? = some Msg.orphanHeader := by
  unfold ciPost
  dsimp only
  apply foldl_log_head
  · intro acc b
    by_cases h1 : b.addr_old ≤ 0
    · exact ⟨[Msg.oddAddress b.addr_old], by rw [if_pos h1]⟩
    · by_cases h2 : b.addr_old ∈ acc.1
      · exact ⟨[Msg.addressReused b.addr_old], by rw [if_neg h1, if_pos h2]⟩
      · exact ⟨[], by rw [if_neg h1, if_neg h2]; simp⟩
  · dsimp only
    apply head?_append_left
    apply head?_append_left
    apply head?_append_left
    apply foldl_log_head
    · intro acc b
      dsimp only
      by_cases h : (invLookup acc.1 b.addr_old).length > 0
      · exact ⟨[], by rw [if_pos h]; simp⟩
      · exact ⟨_, by rw [if_neg h]⟩
    · rfl

/-! ## The effect of `nullify_homeless_addresses` on the block table -/

/-- All field writes of one `nullify_homeless_addresses` run, in order. -/
def applyWrites (bl : List Block) (ws : List Inverse) : Option (List Block) :=
  ws.foldlM applyWrite bl

theorem foldlWrite_eq (l : List Inverse) :
    ∀ (bl : List Block) (n : Nat),
    (l.foldlM (fun (acc1 : List Block × Nat) inv =>
      match applyWrite acc1.1 inv with
      | none => none
      | some bl' => some (bl', acc1.2 + 1)) (bl, n)) =
      (applyWrites bl l).map (fun bl' => (bl', n + l.length)) := by
  induction l with
  | nil => intro bl n; simp [applyWrites]
  | cons w rest ih =>
    intro bl n
    rw [List.foldlM_cons]
    unfold applyWrites
    rw [List.foldlM_cons]
    cases hw : applyWrite bl w with
    | none => simp
    | some bl1 =>
      simp only [Option.bind_eq_bind, Option.some_bind]
      rw [ih bl1 (n + 1)]
      have harith : n + 1 + rest.length = n + (rest.length + 1) := by omega
      rw [harith]
      rfl

theorem nullify_homeless_eq (st : InvState) (bf : BlendFile) :
    nullify_homeless_addresses st bf =
      (applyWrites bf.blocks
        (st.homeless_addresses.flatMap (fun h => invLookup st.inverses h))).map
        (fun bl =>
          ({ bf with blocks := bl },
            (st.homeless_addresses.flatMap
              (fun h => invLookup st.inverses h)).length,
            Msg.nullifiedCount (st.homeless_addresses.flatMap
              (fun h => invLookup st.inverses h)).length)) := by
  have hr : ∀ (hs : List Int) (bl : List Block) (n : Nat),
      (hs.foldlM (fun (acc : List Block × Nat) addr =>
        (invLookup st.inverses addr).foldlM
          (fun (acc1 : List Block × Nat) inv =>
            match applyWrite acc1.1 inv with
            | none => none
            | some bl' => some (bl', acc1.2 + 1)) acc) (bl, n)) =
        (applyWrites bl (hs.flatMap (fun h => invLookup st.inverses h))).map
          (fun bl' =>
            (bl', n + (hs.flatMap (fun h => invLookup st.inverses h)).length)) := by
    intro hs
    induction hs with
    | nil => intro bl n; simp [applyWrites]
    | cons h hs ih =>
      intro bl n
      rw [List.foldlM_cons, foldlWrite_eq]
      rw [List.flatMap_cons]
      unfold applyWrites
      rw [List.foldlM_append]
      cases hw : List.foldlM applyWrite bl (invLookup st.inverses h) with
      | none => simp
      | some bl1 =>
        simp only [Option.map_some', Option.bind_eq_bind, Option.some_bind]
        rw [ih bl1 _]
        have harith : n + (invLookup st.inverses h).length +
            (hs.flatMap (fun h => invLookup st.inverses h)).length =
            n + ((invLookup st.inverses h).length +
              (hs.flatMap (fun h => invLookup st.inverses h)).length) := by
          omega
        rw [List.length_append, harith]
        rfl
  unfold nullify_homeless_addresses
  rw [hr st.homeless_addresses bf.blocks 0]
  cases applyWrites bf.blocks
      (st.homeless_addresses.flatMap (fun h => invLookup st.inverses h)) with
  | none => rfl
  | some bl => simp

/-! ## Locating the block a write lands on -/

theorem foldl_findLast_some {P : Nat → Prop} [DecidablePred P] :
    ∀ (n j : Nat),
    (List.range n).foldl (fun acc j => if P j then some j else acc) none =
      some j → j < n ∧ P j := by
  intro n
  induction n with
  | zero => intro j h; cases h
  | succ n ih =>
    intro j h
    rw [List.range_succ, List.foldl_append, List.foldl_cons, List.foldl_nil] at h
    by_cases hP : P n
    · rw [if_pos hP] at h
      injection h with h
      subst h
      exact ⟨Nat.lt_succ_self n, hP⟩
    · rw [if_neg hP] at h
      obtain ⟨hj, hPj⟩ := ih j h
      exact ⟨Nat.lt_succ_of_lt hj, hPj⟩

theorem foldl_findLast_isSome {P : Nat → Prop} [DecidablePred P] :
    ∀ n : Nat,
    ((List.range n).foldl (fun acc j => if P j then some j else acc)
      none).isSome ↔ ∃ j < n, P j := by
  intro n
  induction n with
  | zero => simp
  | succ n ih =>
    rw [List.range_succ, List.foldl_append, List.foldl_cons, List.foldl_nil]
    by_cases hP : P n
    · rw [if_pos hP]
      simp only [Option.isSome_some, true_iff]
      exact ⟨n, Nat.lt_succ_self n, hP⟩
    · rw [if_neg hP, ih]
      constructor
      · rintro ⟨j, hj, hPj⟩
        exact ⟨j, Nat.lt_succ_of_lt hj, hPj⟩
      · rintro ⟨j, hj, hPj⟩
        rcases Nat.lt_succ_iff_lt_or_eq.mp hj with hj' | rfl
        · exact ⟨j, hj', hPj⟩
        · exact absurd hPj hP

theorem foldl_findLast_unique {P : Nat → Prop} [DecidablePred P] :
    ∀ (n j0 : Nat), j0 < n → P j0 → (∀ j, j < n → P j → j = j0) →
    (List.range n).foldl (fun acc j => if P j then some j else acc) none =
      some j0 := by
  intro n
  induction n with
  | zero => intro j0 h; cases h
  | succ n ih =>
    intro j0 hlt hP huniq
    rw [List.range_succ, List.foldl_append, List.foldl_cons, List.foldl_nil]
    rcases Nat.lt_succ_iff_lt_or_eq.mp hlt with hlt' | rfl
    · have hPn : ¬ P n := fun hPn =>
        Nat.lt_irrefl j0 (huniq n (Nat.lt_succ_self n) hPn ▸ hlt')
      rw [if_neg hPn]
      exact ih j0 hlt' hP
        (fun j hj hPj => huniq j (Nat.lt_succ_of_lt hj) hPj)
    · rw [if_pos hP]

theorem lastAddrIdx_some {bl : List Block} {a : Int} {j : Nat}
    (h : lastAddrIdx bl a = some j) :
    j < bl.length ∧ (bl.getD j default).addr_old = a :=
  foldl_findLast_some bl.length j h

theorem lastAddrIdx_isSome (bl : List Block) (a : Int) :
    (lastAddrIdx bl a).isSome ↔
      ∃ j < bl.length, (bl.getD j default).addr_old = a :=
  foldl_findLast_isSome bl.length

theorem lastAddrIdx_unique {bl : List Block} {a : Int} {j0 : Nat}
    (hlt : j0 < bl.length) (hP : (bl.getD j0 default).addr_old = a)
    (huniq : ∀ j, j < bl.length → (bl.getD j default).addr_old = a → j = j0) :
    lastAddrIdx bl a = some j0 :=
  foldl_findLast_unique bl.length j0 hlt hP huniq

theorem lastAddrIdx_congr {bl bl' : List Block}
    (hlen : bl'.length = bl.length)
    (haddr : ∀ j, (bl'.getD j default).addr_old = (bl.getD j default).addr_old)
    (a : Int) : lastAddrIdx bl' a = lastAddrIdx bl a := by
  unfold lastAddrIdx
  rw [hlen]
  apply List.foldl_ext
  intro acc j _
  rw [haddr j]

/-! ## What the writes do to the block table -/

theorem getD_set_self {l : List Block} {j : Nat} (h : j < l.length)
    (x : Block) : (l.set j x).getD j default = x := by
  rw [List.getD_eq_getElem?_getD, List.getElem?_set_self h]
  rfl

theorem getD_set_ne {l : List Block} {j j' : Nat} (h : j ≠ j') (x : Block) :
    (l.set j x).getD j' default = l.getD j' default := by
  rw [List.getD_eq_getElem?_getD, List.getElem?_set_ne h,
    ← List.getD_eq_getElem?_getD]

theorem applyWrite_length {bl : List Block} {inv : Inverse}
    {bl' : List Block} (h : applyWrite bl inv = some bl') :
    bl'.length = bl.length := by
  unfold applyWrite at h
  cases hj : lastAddrIdx bl inv.address with
  | none => rw [hj] at h; cases h
  | some j =>
    rw [hj] at h
    injection h with h
    subst h
    exact List.length_set bl j _

theorem applyWrite_shape {bl : List Block} {inv : Inverse}
    {bl' : List Block} (h : applyWrite bl inv = some bl') (j' : Nat) :
    (bl'.getD j' default).addr_old = (bl.getD j' default).addr_old ∧
    (bl'.getD j' default).sdna_index = (bl.getD j' default).sdna_index ∧
    (bl'.getD j' default).code = (bl.getD j' default).code ∧
    (bl'.getD j' default).count = (bl.getD j' default).count := by
  unfold applyWrite at h
  cases hj : lastAddrIdx bl inv.address with
  | none => rw [hj] at h; cases h
  | some j =>
    rw [hj] at h
    injection h with h
    subst h
    by_cases hjj : j = j'
    · subst hjj
      rw [getD_set_self (lastAddrIdx_some hj).1]
      exact ⟨rfl, rfl, rfl, rfl⟩
    · rw [getD_set_ne hjj]
      exact ⟨rfl, rfl, rfl, rfl⟩

theorem applyWrite_data {bl : List Block} {inv : Inverse}
    {bl' : List Block} (h : applyWrite bl inv = some bl') (j' : Nat)
    (t : Tail) (i : Nat) :
    (bl'.getD j' default).data t i =
      if lastAddrIdx bl inv.address = some j' ∧ inv.path = t ∧
          inv.block_item_index = i then 0
      else (bl.getD j' default).data t i := by
  unfold applyWrite at h
  cases hj : lastAddrIdx bl inv.address with
  | none => rw [hj] at h; cases h
  | some j =>
    rw [hj] at h
    injection h with h
    subst h
    by_cases hjj : j = j'
    · subst hjj
      rw [getD_set_self (lastAddrIdx_some hj).1]
      show (if t = inv.path ∧ i = inv.block_item_index then 0
        else (bl.getD j default).data t i) = _
      by_cases hti : t = inv.path ∧ i = inv.block_item_index
      · rw [if_pos hti, if_pos ⟨rfl, hti.1.symm, hti.2.symm⟩]
      · rw [if_neg hti, if_neg ?_]
        rintro ⟨-, rfl, rfl⟩
        exact hti ⟨rfl, rfl⟩
    · rw [getD_set_ne hjj, if_neg ?_]
      rintro ⟨hj', -, -⟩
      exact hjj (Option.some.inj hj')

theorem applyWrite_lastAddrIdx {bl : List Block} {inv : Inverse}
    {bl' : List Block} (h : applyWrite bl inv = some bl') (a : Int) :
    lastAddrIdx bl' a = lastAddrIdx bl a :=
  lastAddrIdx_congr (applyWrite_length h)
    (fun j => (applyWrite_shape h j).1) a

theorem applyWrites_length {ws : List Inverse} :
    ∀ {bl bl' : List Block}, applyWrites bl ws = some bl' →
    bl'.length = bl.length := by
  induction ws with
  | nil =>
    intro bl bl' h
    injection h with h
    rw [h]
  | cons w rest ih =>
    intro bl bl' h
    unfold applyWrites at h
    rw [List.foldlM_cons] at h
    cases hw : applyWrite bl w with
    | none => rw [hw] at h; cases h
    | some bl1 =>
      rw [hw] at h
      simp only [Option.bind_eq_bind, Option.some_bind] at h
      exact (ih h).trans (applyWrite_length hw)

theorem applyWrites_shape {ws : List Inverse} :
    ∀ {bl bl' : List Block}, applyWrites bl ws = some bl' → ∀ j' : Nat,
    (bl'.getD j' default).addr_old = (bl.getD j' default).addr_old ∧
    (bl'.getD j' default).sdna_index = (bl.getD j' default).sdna_index ∧
    (bl'.getD j' default).code = (bl.getD j' default).code ∧
    (bl'.getD j' default).count = (bl.getD j' default).count := by
  induction ws with
  | nil =>
    intro bl bl' h j'
    injection h with h
    rw [h]
    exact ⟨rfl, rfl, rfl, rfl⟩
  | cons w rest ih =>
    intro bl bl' h j'
    unfold applyWrites at h
    rw [List.foldlM_cons] at h
    cases hw : applyWrite bl w with
    | none => rw [hw] at h; cases h
    | some bl1 =>
      rw [hw] at h
      simp only [Option.bind_eq_bind, Option.some_bind] at h
      obtain ⟨h1, h2, h3, h4⟩ := ih h j'
      obtain ⟨g1, g2, g3, g4⟩ := applyWrite_shape hw j'
      exact ⟨h1.trans g1, h2.trans g2, h3.trans g3, h4.trans g4⟩

theorem applyWrites_lastAddrIdx {ws : List Inverse} {bl bl' : List Block}
    (h : applyWrites bl ws = some bl') (a : Int) :
    lastAddrIdx bl' a = lastAddrIdx bl a :=
  lastAddrIdx_congr (applyWrites_length h)
    (fun j => (applyWrites_shape h j).1) a

theorem applyWrites_isSome {ws : List Inverse} :
    ∀ {bl : List Block},
    (∀ w ∈ ws, (lastAddrIdx bl w.address).isSome) →
    (applyWrites bl ws).isSome := by
  induction ws with
  | nil => intro bl _; exact rfl
  | cons w rest ih =>
    intro bl hws
    obtain ⟨j, hj⟩ := Option.isSome_iff_exists.mp
      (hws w (List.mem_cons_self w rest))
    have hw : applyWrite bl w = some (bl.set j
        ((bl.getD j default).setData w.path w.block_item_index 0)) := by
      unfold applyWrite
      rw [hj]
    unfold applyWrites
    rw [List.foldlM_cons, hw]
    simp only [Option.bind_eq_bind, Option.some_bind]
    exact ih (fun w' hw' => by
      rw [applyWrite_lastAddrIdx hw]
      exact hws w' (List.mem_cons_of_mem w hw'))

theorem applyWrites_data_untargeted {ws : List Inverse} :
    ∀ {bl bl' : List Block}, applyWrites bl ws = some bl' →
    ∀ (j : Nat) (t : Tail) (i : Nat),
    (∀ w ∈ ws, ¬ (lastAddrIdx bl w.address = some j ∧ w.path = t ∧
      w.block_item_index = i)) →
    (bl'.getD j default).data t i = (bl.getD j default).data t i := by
  induction ws with
  | nil =>
    intro bl bl' h j t i _
    injection h with h
    rw [h]
  | cons w rest ih =>
    intro bl bl' h j t i hnot
    unfold applyWrites at h
    rw [List.foldlM_cons] at h
    cases hw : applyWrite bl w with
    | none => rw [hw] at h; cases h
    | some bl1 =>
      rw [hw] at h
      simp only [Option.bind_eq_bind, Option.some_bind] at h
      rw [ih h j t i (fun w' hw' => by
        rw [applyWrite_lastAddrIdx hw]
        exact hnot w' (List.mem_cons_of_mem w hw'))]
      rw [applyWrite_data hw j t i,
        if_neg (hnot w (List.mem_cons_self w rest))]

theorem applyWrites_data_cases {ws : List Inverse} :
    ∀ {bl bl' : List Block}, applyWrites bl ws = some bl' →
    ∀ (j : Nat) (t : Tail) (i : Nat),
    (bl'.getD j default).data t i = (bl.getD j default).data t i ∨
      (bl'.getD j default).data t i = 0 := by
  induction ws with
  | nil =>
    intro bl bl' h j t i
    injection h with h
    rw [h]
    exact Or.inl rfl
  | cons w rest ih =>
    intro bl bl' h j t i
    unfold applyWrites at h
    rw [List.foldlM_cons] at h
    cases hw : applyWrite bl w with
    | none => rw [hw] at h; cases h
    | some bl1 =>
      rw [hw] at h
      simp only [Option.bind_eq_bind, Option.some_bind] at h
      rcases ih h j t i with h1 | h1
      · rw [h1, applyWrite_data hw j t i]
        by_cases hc : lastAddrIdx bl w.address = some j ∧ w.path = t ∧
            w.block_item_index = i
        · rw [if_pos hc]
          exact Or.inr rfl
        · rw [if_neg hc]
          exact Or.inl rfl
      · exact Or.inr h1

theorem applyWrites_data_zero {ws : List Inverse} :
    ∀ {bl bl' : List Block}, applyWrites bl ws = some bl' →
    ∀ (j : Nat) (t : Tail) (i : Nat),
    (∃ w ∈ ws, lastAddrIdx bl w.address = some j ∧ w.path = t ∧
      w.block_item_index = i) →
    (bl'.getD j default).data t i = 0 := by
  induction ws with
  | nil =>
    intro bl bl' _ j t i hex
    obtain ⟨w, hw, -⟩ := hex
    cases hw
  | cons w rest ih =>
    intro bl bl' h j t i hex
    unfold applyWrites at h
    rw [List.foldlM_cons] at h
    cases hw : applyWrite bl w with
    | none => rw [hw] at h; cases h
    | some bl1 =>
      rw [hw] at h
      simp only [Option.bind_eq_bind, Option.some_bind] at h
      obtain ⟨w0, hw0mem, hw0⟩ := hex
      rcases List.mem_cons.mp hw0mem with rfl | hw0mem'
      · have h1 : (bl1.getD j default).data t i = 0 := by
          rw [applyWrite_data hw j t i, if_pos hw0]
        rcases applyWrites_data_cases h j t i with h2 | h2
        · rw [h2, h1]
        · exact h2
      · exact ih h j t i ⟨w0, hw0mem',
          by rw [applyWrite_lastAddrIdx hw]; exact hw0⟩

/-! ## Concrete snapshots for witnesses and counterexamples -/

/-- A scalar pointer field descriptor named `p`. -/
def fldPtr : DNAField := .mk ⟨"p", true, 1⟩ ("void") []

/-- A catalog: index 0 is the reserved raw-data entry, index 1 a struct `T`
with one pointer field. -/
def structsEx : List DNAStruct := [⟨"raw", []⟩, ⟨"T", [fldPtr]⟩]

/-- A one-item block of type `T` whose pointer field `p` stores `v`. -/
def mkBlockEx (addr : Int) (v : Int) : Block :=
  ⟨addr, 1, "AA", 1,
    fun t i => if t = [PathSeg.pname ("p")] ∧ i = 0 then v else 0⟩

/-- One block at address 100 pointing at address 999, which no block owns. -/
def bfOne : BlendFile := ⟨[mkBlockEx 100 999], structsEx, ⟨[3, 1, 2], 2⟩⟩

/-- Address 100 points at address 200, which block 200 owns. -/
def bfTwo : BlendFile :=
  ⟨[mkBlockEx 100 200, mkBlockEx 200 0], structsEx, ⟨[], 0⟩⟩

/-- Two blocks sharing address 100, both pointing at homeless address 999. -/
def bfDup : BlendFile :=
  ⟨[mkBlockEx 100 999, mkBlockEx 100 999], structsEx, ⟨[], 0⟩⟩

/-! ## Claims about the Reflection Walker -/

/-- C9: the `assert False` branch of `check_block_field` is unreachable:
on every block, item index, field descriptor, path prefix and map the
walker returns a map instead of aborting. -/
theorem C9_assert_unreachable (tid : String) (blk : Block) (bii : Nat)
    (f : DNAField) (tail : Tail) (m : InvMap) :
    (check_block_field tid blk bii f tail m).isSome = true := by
  rw [check_block_field_eq]
  rfl

/-- C4: the pointer check takes precedence over the nested-field check: a
field whose pointer flag is set is a leaf, and the walker's result does not
depend on the pointed-to type's declared fields — erasing them gives the
same result. -/
theorem C4_pointer_is_leaf (tid : String) (blk : Block) (bii : Nat)
    (nm : FieldName) (ftid : String) (fs : List DNAField) (tail : Tail)
    (m : InvMap) (h : nm.is_pointer = true) :
    check_block_field tid blk bii (.mk nm ftid fs) tail m =
      check_block_field tid blk bii (.mk nm ftid []) tail m := by
  rw [check_block_field_eq, check_block_field_eq]
  rw [ptrLeavesF, ptrLeavesF]
  rw [if_neg (by simp [h]), if_neg (by simp [h])]
  simp only [h, if_true]

/-- C4 witness at a concrete pointer field carrying nested metadata. -/
theorem C4_pointer_is_leaf_witness :
    (⟨"p", true, 1⟩ : FieldName).is_pointer = true ∧
    check_block_field ("T") (mkBlockEx 100 999) 0
        (.mk ⟨"p", true, 1⟩ ("void") [.mk ⟨"x", false, 1⟩ ("int") []]) [] [] =
      check_block_field ("T") (mkBlockEx 100 999) 0
        (.mk ⟨"p", true, 1⟩ ("void") []) [] [] :=
  ⟨rfl, C4_pointer_is_leaf ("T") (mkBlockEx 100 999) 0 ⟨"p", true, 1⟩
    ("void") [.mk ⟨"x", false, 1⟩ ("int") []] [] [] rfl⟩

/-! ## Claims about the Reference Graph Builder -/

/-- C3: `check_inverses` clears its map and rebuilds from scratch, so a
second run from the state the first run left behind yields the very same
result — no accumulation across runs. -/
theorem C3_idempotent (st : InvState) (bf : BlendFile) (res : CheckResult)
    (h : check_inverses st bf = some res) :
    check_inverses res.state bf = some res := by
  rw [check_inverses_eq] at h ⊢
  exact h

/-- C3 witness on a concrete snapshot. -/
theorem C3_idempotent_witness :
    check_inverses (⟨[], []⟩ : InvState) bfOne =
      some (ciPost (buildMapT bfOne) bfOne) ∧
    check_inverses (ciPost (buildMapT bfOne) bfOne).state bfOne =
      some (ciPost (buildMapT bfOne) bfOne) :=
  ⟨check_inverses_eq _ _,
    C3_idempotent _ _ _ (check_inverses_eq (⟨[], []⟩ : InvState) bfOne)⟩

/-- C5: a pointer terminal whose stored value is 0 is never recorded:
every record of the built map sits at a non-zero key, and its source
terminal stores exactly that non-zero key. -/
theorem C5_null_never_inserted (st : InvState) (bf : BlendFile)
    (res : CheckResult) (h : check_inverses st bf = some res)
    (k : Int) (inv : Inverse) (hmem : inv ∈ invLookup res.state.inverses k) :
    k ≠ 0 ∧ ∃ b ∈ bf.blocks, inv.address = b.addr_old ∧
      b.get inv.path inv.block_item_index = k := by
  rw [check_inverses_eq] at h
  injection h with h
  rw [← h, ciPost_inverses, invLookup_touchFold, invLookup_touchFold] at hmem
  obtain ⟨b, hb, hsdna, i, hi, t, ht, hget, hk, hx⟩ :=
    (mem_buildMapT bf k inv).mp hmem
  subst hx
  exact ⟨hk, b, hb, rfl, hget⟩

/-- C5 witness on a concrete snapshot. -/
theorem C5_null_never_inserted_witness :
    check_inverses (⟨[], []⟩ : InvState) bfOne =
      some (ciPost (buildMapT bfOne) bfOne) ∧
    (⟨100, 0, "T", [PathSeg.pname ("p")]⟩ : Inverse) ∈
      invLookup (ciPost (buildMapT bfOne) bfOne).state.inverses 999 ∧
    ((999 : Int) ≠ 0 ∧ ∃ b ∈ bfOne.blocks,
      (⟨100, 0, "T", [PathSeg.pname ("p")]⟩ : Inverse).address = b.addr_old ∧
      b.get (⟨100, 0, "T", [PathSeg.pname ("p")]⟩ : Inverse).path
        (⟨100, 0, "T", [PathSeg.pname ("p")]⟩ : Inverse).block_item_index =
          999) :=
  ⟨check_inverses_eq _ _, by decide,
    C5_null_never_inserted _ _ _ (check_inverses_eq (⟨[], []⟩ : InvState) bfOne)
      999 _ (by decide)⟩

/-- C2 counterexample: a record stored under key 200 carries `address`
100 — the referencing block's address — which differs from the key. -/
theorem C2_counterexample :
    (check_inverses (⟨[], []⟩ : InvState) bfTwo).map
      (fun r => invLookup r.state.inverses 200) =
      some [⟨100, 0, "T", [PathSeg.pname ("p")]⟩] ∧
    (⟨100, 0, "T", [PathSeg.pname ("p")]⟩ : Inverse).address ≠ 200 := by
  constructor <;> decide

/-- C2 amended: in every record of the built map, `address` is the address
of the referencing source block (the map key is the referenced target, and
the source block's recorded terminal stores it). -/
theorem C2_amended_source_address (st : InvState) (bf : BlendFile)
    (res : CheckResult) (h : check_inverses st bf = some res)
    (k : Int) (inv : Inverse) (hmem : inv ∈ invLookup res.state.inverses k) :
    ∃ b ∈ bf.blocks, inv.address = b.addr_old ∧
      inv.dna_type_id = (blockType bf b).dna_type_id ∧
      b.get inv.path inv.block_item_index = k := by
  rw [check_inverses_eq] at h
  injection h with h
  rw [← h, ciPost_inverses, invLookup_touchFold, invLookup_touchFold] at hmem
  obtain ⟨b, hb, hsdna, i, hi, t, ht, hget, hk, hx⟩ :=
    (mem_buildMapT bf k inv).mp hmem
  subst hx
  exact ⟨b, hb, rfl, rfl, hget⟩

/-- C2 amended, witness on a concrete snapshot. -/
theorem C2_amended_source_address_witness :
    check_inverses (⟨[], []⟩ : InvState) bfTwo =
      some (ciPost (buildMapT bfTwo) bfTwo) ∧
    (⟨100, 0, "T", [PathSeg.pname ("p")]⟩ : Inverse) ∈
      invLookup (ciPost (buildMapT bfTwo) bfTwo).state.inverses 200 ∧
    ∃ b ∈ bfTwo.blocks,
      (⟨100, 0, "T", [PathSeg.pname ("p")]⟩ : Inverse).address = b.addr_old ∧
      (⟨100, 0, "T", [PathSeg.pname ("p")]⟩ : Inverse).dna_type_id =
        (blockType bfTwo b).dna_type_id ∧
      b.get [PathSeg.pname ("p")] 0 = 200 :=
  ⟨check_inverses_eq _ _, by decide,
    C2_amended_source_address _ _ _
      (check_inverses_eq (⟨[], []⟩ : InvState) bfTwo) 200 _ (by decide)⟩

/-! ## Claims about the analyzer's side effects and state -/

/-- C7: the raw-byte pass saves the offset, reads from the start and
restores the saved offset: a completed `check_inverses` run leaves the
shared handle at its original position. -/
theorem C7_offset_restored (st : InvState) (bf : BlendFile)
    (res : CheckResult) (h : check_inverses st bf = some res) :
    res.fileobj.pos = bf.fileobj.pos := by
  rw [check_inverses_eq] at h
  injection h with h
  rw [← h, ciPost_fileobj]
  rfl

/-- C7 witness on a concrete snapshot with a non-zero current offset. -/
theorem C7_offset_restored_witness :
    check_inverses (⟨[], []⟩ : InvState) bfOne =
      some (ciPost (buildMapT bfOne) bfOne) ∧
    (ciPost (buildMapT bfOne) bfOne).fileobj.pos = bfOne.fileobj.pos :=
  ⟨check_inverses_eq _ _,
    C7_offset_restored _ _ _ (check_inverses_eq (⟨[], []⟩ : InvState) bfOne)⟩

/-- C8 counterexample: the builder run prints — on a concrete snapshot the
log `check_inverses` leaves behind is not empty. -/
theorem C8_counterexample :
    (check_inverses (⟨[], []⟩ : InvState) bfOne).map CheckResult.log ≠
      some ([] : List Msg) ∧
    ((check_inverses (⟨[], []⟩ : InvState) bfOne).map
      CheckResult.log).isSome = true := by
  constructor <;> decide

/-- C8 amended: building and reporting are one routine: every completed
`check_inverses` run prints the integrity report itself, its log starting
with the orphan-section header. -/
theorem C8_amended_prints (st : InvState) (bf : BlendFile)
    (res : CheckResult) (h : check_inverses st bf = some res) :
    res.log.head? = some Msg.orphanHeader := by
  rw [check_inverses_eq] at h
  injection h with h
  rw [← h]
  exact ciPost_log_head _ _

/-- C8 amended, witness on a concrete snapshot. -/
theorem C8_amended_prints_witness :
    check_inverses (⟨[], []⟩ : InvState) bfOne =
      some (ciPost (buildMapT bfOne) bfOne) ∧
    (ciPost (buildMapT bfOne) bfOne).log.head? = some Msg.orphanHeader :=
  ⟨check_inverses_eq _ _,
    C8_amended_prints _ _ _ (check_inverses_eq (⟨[], []⟩ : InvState) bfOne)⟩

/-- C10: the orphan scan's defaultdict lookups insert missing keys: after
`check_inverses`, every block's address is present as a key of the map, so
an absent key and an empty entry are indistinguishable afterwards. -/
theorem C10_all_addresses_keyed (st : InvState) (bf : BlendFile)
    (res : CheckResult) (h : check_inverses st bf = some res) :
    ∀ b ∈ bf.blocks, b.addr_old ∈ invKeys res.state.inverses := by
  rw [check_inverses_eq] at h
  injection h with h
  intro b hb
  rw [← h, ciPost_inverses, mem_invKeys_touchFold]
  exact Or.inl ⟨b, hb, rfl⟩

/-- C10 witness: block 100 of the concrete snapshot is an orphan (nothing
points at it) yet its address ends up as a key of the map. -/
theorem C10_all_addresses_keyed_witness :
    check_inverses (⟨[], []⟩ : InvState) bfOne =
      some (ciPost (buildMapT bfOne) bfOne) ∧
    (100 : Int) ∈
      invKeys (ciPost (buildMapT bfOne) bfOne).state.inverses :=
  ⟨check_inverses_eq _ _,
    C10_all_addresses_keyed _ _ _
      (check_inverses_eq (⟨[], []⟩ : InvState) bfOne)
      (mkBlockEx 100 999) (List.mem_singleton.mpr rfl)⟩

/-! ## Claims about the Patch Engine: session uids -/

theorem getD_eq_getElem {l : List Block} {j : Nat} (hj : j < l.length) :
    l.getD j default = l[j] := by
  rw [List.getD_eq_getElem?_getD, List.getElem?_eq_getElem hj]
  rfl

theorem getD_map_lt {f : Block → Block} {l : List Block} {j : Nat}
    (hj : j < l.length) : (l.map f).getD j default = f (l.getD j default) := by
  rw [List.getD_eq_getElem?_getD, List.getElem?_map,
    List.getElem?_eq_getElem hj, getD_eq_getElem hj]
  rfl

theorem foldl_filtermap_fst (p : Block → Bool) (f : Block → Block) :
    ∀ (l : List Block) (acc : List Block) (n : Nat),
    (l.foldl (fun (acc : List Block × Nat) b =>
      if p b then (acc.1 ++ [f b], acc.2 + 1) else (acc.1 ++ [b], acc.2))
      (acc, n)).1 = acc ++ l.map (fun b => if p b then f b else b) := by
  intro l
  induction l with
  | nil => intro acc n; simp
  | cons b rest ih =>
    intro acc n
    rw [List.foldl_cons, List.map_cons]
    by_cases h : p b
    · rw [if_pos h, if_pos h, ih, List.append_assoc]
      rfl
    · rw [if_neg h, if_neg h, ih, List.append_assoc]
      rfl

theorem nullify_session_uids_blocks (bf : BlendFile) :
    (nullify_session_uids bf).1.blocks =
      bf.blocks.map (fun b =>
        if is_id_block bf b.sdna_index then b.setData idSessionTail 0 0
        else b) := by
  have h := foldl_filtermap_fst (fun b => is_id_block bf b.sdna_index)
    (fun b => b.setData idSessionTail 0 0) bf.blocks [] 0
  simpa using h

/-- C6: after `nullify_session_uids`, every identity-bearing block (its
type's field list has an `id` field of the catalog's `ID` struct) reads 0
at `id.session_uid`, and every other block is entirely unchanged. -/
theorem C6_session_uid_scope (bf : BlendFile) (j : Nat)
    (hj : j < bf.blocks.length) :
    (is_id_block bf (bf.blocks.getD j default).sdna_index = true →
      ((nullify_session_uids bf).1.blocks.getD j default).get
        idSessionTail 0 = 0) ∧
    (is_id_block bf (bf.blocks.getD j default).sdna_index = false →
      (nullify_session_uids bf).1.blocks.getD j default =
        bf.blocks.getD j default) := by
  rw [nullify_session_uids_blocks, getD_map_lt hj]
  constructor
  · intro hp
    rw [if_pos hp]
    show (if idSessionTail = idSessionTail ∧ (0 : Nat) = 0 then (0 : Int)
      else (bf.blocks.getD j default).data idSessionTail 0) = 0
    rw [if_pos ⟨rfl, rfl⟩]
  · intro hp
    rw [if_neg (by rw [hp]; exact Bool.false_ne_true)]

/-- The `ID` struct's field list used by the C6 witness catalog. -/
def fldIdName : DNAField := .mk ⟨"name", false, 1⟩ ("char") []

def fldIdSess : DNAField := .mk ⟨"session_uid", false, 1⟩ ("int") []

/-- An `id` field whose declared type is the `ID` struct. -/
def fldId : DNAField := .mk ⟨"id", false, 1⟩ ("ID") [fldIdName, fldIdSess]

/-- A catalog with an identity-bearing type (index 1) and a plain one. -/
def structsId : List DNAStruct :=
  [⟨"raw", []⟩, ⟨"Object", [fldId]⟩,
    ⟨"NoId", [.mk ⟨"x", false, 1⟩ ("int") []]⟩]

def blockWithId : Block :=
  ⟨300, 1, "OB", 1, fun t i => if t = idSessionTail ∧ i = 0 then 77 else 5⟩

def blockWithoutId : Block := ⟨400, 2, "XX", 1, fun _ _ => 9⟩

def bfId : BlendFile := ⟨[blockWithId, blockWithoutId], structsId, ⟨[], 0⟩⟩

/-- C6 witness: the identity-bearing block's `id.session_uid` reads 0
afterwards; the other block is untouched. -/
theorem C6_session_uid_scope_witness :
    (0 < bfId.blocks.length ∧ 1 < bfId.blocks.length) ∧
    ((nullify_session_uids bfId).1.blocks.getD 0 default).get
      idSessionTail 0 = 0 ∧
    (nullify_session_uids bfId).1.blocks.getD 1 default =
      bfId.blocks.getD 1 default :=
  ⟨⟨by decide, by decide⟩,
    (C6_session_uid_scope bfId 0 (by decide)).1 (by decide),
    (C6_session_uid_scope bfId 1 (by decide)).2 (by decide)⟩

/-! ## Claim C1: nullifying homeless references -/

/-- C1 counterexample: two blocks share address 100 and both point at
homeless address 999; the patch reaches only the one block the address
dictionary retains, so rebuilding after the patch still finds a record
under the previously-homeless address 999. -/
theorem C1_counterexample :
    (check_inverses (⟨[], []⟩ : InvState) bfDup).map
      (fun r => r.state.homeless_addresses) = some [999] ∧
    ((check_inverses (⟨[], []⟩ : InvState) bfDup).bind
      (fun r => nullify_homeless_addresses r.state bfDup)).bind
      (fun p => (check_inverses (⟨[], []⟩ : InvState) p.1).map
        (fun r => invLookup r.state.inverses 999)) =
      some [⟨100, 0, "T", [PathSeg.pname ("p")]⟩] := by
  constructor <;> decide

/-- C1 amended: on a snapshot whose blocks carry pairwise-distinct
addresses, running the builder, nullifying the homeless references and
re-running the builder yields a map whose entry at every
previously-homeless address is empty; and the reported mutation count
equals the total number of Inverse records stored under homeless addresses
before the patch. -/
theorem C1_amended_nullify_homeless (st st' : InvState) (bf : BlendFile)
    (res1 : CheckResult) (h1 : check_inverses st bf = some res1)
    (hnodup : (bf.blocks.map Block.addr_old).Nodup)
    (bf' : BlendFile) (n : Nat) (msg : Msg)
    (h2 : nullify_homeless_addresses res1.state bf = some (bf', n, msg))
    (res2 : CheckResult) (h3 : check_inverses st' bf' = some res2) :
    (∀ h0 ∈ res1.state.homeless_addresses,
      invLookup res2.state.inverses h0 = []) ∧
    n = (res1.state.homeless_addresses.map
      (fun h0 => (invLookup res1.state.inverses h0).length)).sum := by
  rw [check_inverses_eq] at h1
  injection h1 with h1
  subst h1
  have hlook1 : ∀ k, invLookup (ciPost (buildMapT bf) bf).state.inverses k =
      invLookup (buildMapT bf) k := by
    intro k
    rw [ciPost_inverses, invLookup_touchFold, invLookup_touchFold]
  rw [nullify_homeless_eq] at h2
  set ws : List Inverse :=
    (ciPost (buildMapT bf) bf).state.homeless_addresses.flatMap
      (fun h0 => invLookup (ciPost (buildMapT bf) bf).state.inverses h0)
    with hws
  cases haw : applyWrites bf.blocks ws with
  | none => rw [haw] at h2; cases h2
  | some bl' =>
    rw [haw] at h2
    simp only [Option.map_some', Option.some.injEq, Prod.mk.injEq] at h2
    obtain ⟨h2a, h2b, h2c⟩ := h2
    subst h2a
    subst h2b
    constructor
    · -- every previously-homeless address has an empty entry after re-run
      intro h0 hh0
      rw [check_inverses_eq] at h3
      injection h3 with h3
      subst h3
      rw [ciPost_inverses, invLookup_touchFold, invLookup_touchFold]
      apply List.eq_nil_iff_forall_not_mem.mpr
      intro inv hinv
      obtain ⟨b', hb'mem, hsdna, i, hi, t, ht, hget, hk0, hinveq⟩ :=
        (mem_buildMapT _ h0 inv).mp hinv
      obtain ⟨j, hjlen, hjev⟩ := List.mem_iff_getElem.mp hb'mem
      have hjlen2 : j < bf.blocks.length := by
        rw [← applyWrites_length haw]
        exact hjlen
      have hb'getD : bl'.getD j default = b' := by
        rw [getD_eq_getElem hjlen]
        exact hjev
      obtain ⟨hsh1, hsh2, hsh3, hsh4⟩ := applyWrites_shape haw j
      rw [hb'getD] at hsh1 hsh2 hsh4
      have hbt : blockType { bf with blocks := bl' } b' =
          blockType bf (bf.blocks.getD j default) := by
        unfold blockType
        rw [hsh2]
      by_cases htgt : ∃ w ∈ ws, lastAddrIdx bf.blocks w.address = some j ∧
          w.path = t ∧ w.block_item_index = i
      · have hz := applyWrites_data_zero haw j t i htgt
        rw [hb'getD] at hz
        rw [show b'.get t i = b'.data t i from rfl, hz] at hget
        exact hk0 hget.symm
      · have hun := applyWrites_data_untargeted haw j t i
          (fun w hw hc => htgt ⟨w, hw, hc⟩)
        rw [hb'getD] at hun
        have hgetbf : (bf.blocks.getD j default).get t i = h0 := by
          show (bf.blocks.getD j default).data t i = h0
          rw [← hun]
          exact hget
        have hmem0 : (⟨(bf.blocks.getD j default).addr_old, i,
            (blockType bf (bf.blocks.getD j default)).dna_type_id, t⟩ :
              Inverse) ∈ invLookup (buildMapT bf) h0 := by
          apply (mem_buildMapT bf h0 _).mpr
          refine ⟨bf.blocks.getD j default, ?_, ?_, i, ?_, t, ?_, hgetbf,
            hk0, rfl⟩
          · rw [getD_eq_getElem hjlen2]
            exact List.getElem_mem hjlen2
          · rw [← hsh2]
            exact hsdna
          · rw [← hsh4]
            exact hi
          · rw [← hbt]
            exact ht
        apply htgt
        refine ⟨⟨(bf.blocks.getD j default).addr_old, i,
          (blockType bf (bf.blocks.getD j default)).dna_type_id, t⟩,
          List.mem_flatMap.mpr ⟨h0, hh0, by rw [hlook1]; exact hmem0⟩,
          ?_, rfl, rfl⟩
        apply lastAddrIdx_unique hjlen2 rfl
        intro j' hj' hPj'
        have hj'm : j' < (bf.blocks.map Block.addr_old).length := by
          rw [List.length_map]
          exact hj'
        have hjm : j < (bf.blocks.map Block.addr_old).length := by
          rw [List.length_map]
          exact hjlen2
        have he : (bf.blocks.map Block.addr_old)[j'] =
            (bf.blocks.map Block.addr_old)[j] := by
          rw [List.getElem_map, List.getElem_map, ← getD_eq_getElem hj',
            ← getD_eq_getElem hjlen2]
          exact hPj'
        exact (List.Nodup.getElem_inj_iff hnodup).mp he
    · -- the mutation count is the number of records under homeless keys
      rw [hws, List.length_flatMap]
      rfl

/-- The snapshot `bfOne` after its one homeless reference is zeroed. -/
def bfOnePatched : BlendFile :=
  { bfOne with blocks :=
      [(mkBlockEx 100 999).setData [PathSeg.pname ("p")] 0 0] }

/-- C1 amended, witness: on the single-block snapshot (distinct addresses)
the patch zeroes the one reference to homeless address 999, reports one
mutation, and the rebuilt map's entry at 999 is empty. -/
theorem C1_amended_nullify_homeless_witness :
    check_inverses (⟨[], []⟩ : InvState) bfOne =
      some (ciPost (buildMapT bfOne) bfOne) ∧
    (bfOne.blocks.map Block.addr_old).Nodup ∧
    nullify_homeless_addresses (ciPost (buildMapT bfOne) bfOne).state bfOne =
      some (bfOnePatched, 1, Msg.nullifiedCount 1) ∧
    check_inverses (⟨[], []⟩ : InvState) bfOnePatched =
      some (ciPost (buildMapT bfOnePatched) bfOnePatched) ∧
    ((∀ h0 ∈ (ciPost (buildMapT bfOne) bfOne).state.homeless_addresses,
        invLookup
          (ciPost (buildMapT bfOnePatched) bfOnePatched).state.inverses h0 =
          []) ∧
      1 = ((ciPost (buildMapT bfOne) bfOne).state.homeless_addresses.map
        (fun h0 =>
          (invLookup (ciPost (buildMapT bfOne) bfOne).state.inverses
            h0).length)).sum) := by
  have hnull : nullify_homeless_addresses
      (ciPost (buildMapT bfOne) bfOne).state bfOne =
      some (bfOnePatched, 1, Msg.nullifiedCount 1) := rfl
  exact ⟨check_inverses_eq _ _, by decide, hnull, check_inverses_eq _ _,
    C1_amended_nullify_homeless _ _ _ _
      (check_inverses_eq (⟨[], []⟩ : InvState) bfOne) (by decide) _ _ _
      hnull _ (check_inverses_eq (⟨[], []⟩ : InvState) bfOnePatched)⟩

end BlendDiff
